import Mathlib

/-!
Shallow embedding of the task state-management core
(`src/task-manager/src/features/tasks/tasksSlice.ts`): the Redux slice
state, its reducers (addTask, updateTask, toggleTaskStatus, deleteTask,
updateTaskOrder, resetToSampleData) and the derived-view selectors
(search, sort-by-field, statistics), together with theorems settling the
specification claims about them.

Modelling conventions:
- JavaScript numbers holding ids, indices and counters are modelled as
  `Nat` (they stay small and non-negative in the source); `getTime()`
  millisecond values and comparator results are `Int`.
- `Array.prototype.sort` is required to be stable by ECMA-262, so every
  `sort(cmp)` call is embedded as `List.insertionSort` with the relation
  `cmp a b ≤ 0` (insertion sort is the canonical stable sort).
- `localStorage` traffic is made explicit: every reducer returns the new
  state together with the list of storage effects it performed.
- `String.prototype.toLowerCase` / `trim` are modelled over the ASCII
  fragment (`Char.toLower`, `Char.isWhitespace`), which covers all data
  the program manipulates.
-/

namespace TaskManager

/-- `type TaskCategory` from the source. -/
inductive TaskCategory : Type
  | work
  | personal
  | shopping
  | health
  | finance
  | other
deriving DecidableEq, Repr

/-- `type TaskPriority` from the source. -/
inductive TaskPriority : Type
  | high
  | medium
  | low
deriving DecidableEq, Repr

/-- `status: 'pending' | 'completed'` from the `Task` interface. -/
inductive TaskStatus : Type
  | pending
  | completed
deriving DecidableEq, Repr

/-- The `Task` interface. -/
structure Task where
  id : Nat
  title : String
  status : TaskStatus
  deadline : String
  category : TaskCategory
  priority : TaskPriority
deriving DecidableEq, Repr

/-- The `TasksState` interface: tasks, nextId, deletedIds. -/
structure TasksState where
  tasks : List Task
  nextId : Nat
  deletedIds : List Nat
deriving DecidableEq, Repr

/-- The fixed 7-task sample data returned by `loadTasksFromStorage` when
local storage is empty (the fallback branch). -/
def sampleTasks : List Task :=
  [ ⟨1, "Fix login bug", .pending, "2025-05-10", .work, .high⟩,
    ⟨2, "Write unit tests", .completed, "2025-06-01", .work, .medium⟩,
    ⟨3, "Update README documentation", .pending, "2025-04-15", .work, .low⟩,
    ⟨4, "Design new user profile page", .pending, "2025-04-01", .personal, .medium⟩,
    ⟨5, "Buy groceries", .pending, "2025-04-05", .shopping, .high⟩,
    ⟨6, "Schedule doctor appointment", .completed, "2025-04-10", .health, .high⟩,
    ⟨7, "Pay utility bills", .pending, "2025-04-20", .finance, .medium⟩ ]

/-- `initialState`: a fresh process start with empty local storage, so
`loadTasksFromStorage` falls back to the sample data, and
`deletedIds: []`. -/
def initialState : TasksState :=
  { tasks := sampleTasks, nextId := 8, deletedIds := [] }

/-- A storage operation performed against `localStorage`. -/
inductive StorageEffect : Type
  | save (tasks : List Task) (nextId : Nat)
  | clear
deriving DecidableEq, Repr

/-- `saveToLocalStorage`: writes `tasks` and `nextId`; `deletedIds` is
deliberately not persisted. -/
def saveEffect (s : TasksState) : StorageEffect :=
  .save s.tasks s.nextId

/-- The `Omit<Task, 'id'>` payload of `addTask`. -/
structure NewTask where
  title : String
  status : TaskStatus
  deadline : String
  category : TaskCategory
  priority : TaskPriority
deriving DecidableEq, Repr

/-- Building the task record `{ id: newId, ...action.payload }`. -/
def mkTask (id : Nat) (p : NewTask) : Task :=
  ⟨id, p.title, p.status, p.deadline, p.category, p.priority⟩

/-- The `addTask` reducer: reuse the smallest deleted id if any
(`deletedIds.sort((a,b) => a-b)` then `shift()`), otherwise draw
`nextId` and increment it; push the new task and persist. -/
def addTask (s : TasksState) (p : NewTask) : TasksState × List StorageEffect :=
  if 0 < s.deletedIds.length then
    let sorted := List.insertionSort (· ≤ ·) s.deletedIds
    let newId := sorted.headI
    let s' : TasksState := ⟨s.tasks ++ [mkTask newId p], s.nextId, sorted.tail⟩
    (s', [saveEffect s'])
  else
    let newId := s.nextId
    let s' : TasksState := ⟨s.tasks ++ [mkTask newId p], s.nextId + 1, s.deletedIds⟩
    (s', [saveEffect s'])

/-- The `Partial<Task> & { id: number }` payload of `updateTask`: the id
is always present, every other field optional. -/
structure TaskPatch where
  id : Nat
  title : Option String := none
  status : Option TaskStatus := none
  deadline : Option String := none
  category : Option TaskCategory := none
  priority : Option TaskPriority := none
deriving DecidableEq, Repr

/-- The object spread `{ ...state.tasks[index], ...action.payload }`:
fields present in the payload (including `id`) override, absent fields
keep the stored value. -/
def applyPatch (t : Task) (p : TaskPatch) : Task :=
  { id := p.id,
    title := p.title.getD t.title,
    status := p.status.getD t.status,
    deadline := p.deadline.getD t.deadline,
    category := p.category.getD t.category,
    priority := p.priority.getD t.priority }

/-- `findIndex` + assignment at that index: rewrite the first element
satisfying `p` with `f`, leave everything else in place. -/
def updateFirst (p : α → Bool) (f : α → α) : List α → List α
  | [] => []
  | a :: l => if p a then f a :: l else a :: updateFirst p f l

/-- The `updateTask` reducer: `findIndex(task => task.id === payload.id)`;
on a hit, merge the payload into that task and persist; on a miss, do
nothing (no state change, no storage write). -/
def updateTask (s : TasksState) (p : TaskPatch) : TasksState × List StorageEffect :=
  if s.tasks.any (fun t => t.id == p.id) then
    let s' : TasksState :=
      { s with tasks := updateFirst (fun t => t.id == p.id) (fun t => applyPatch t p) s.tasks }
    (s', [saveEffect s'])
  else
    (s, [])

/-- The ternary `status === 'pending' ? 'completed' : 'pending'`. -/
def toggleStatus : TaskStatus → TaskStatus
  | .pending => .completed
  | .completed => .pending

/-- The assignment `tasks[index].status = tasks[index].status === 'pending' ? ... `
as a task-level function. -/
def toggleTask (t : Task) : Task :=
  { t with status := toggleStatus t.status }

/-- The `toggleTaskStatus` reducer: flip the status of the first task
whose id matches and persist; no-op when the id is absent. -/
def toggleTaskStatus (s : TasksState) (id : Nat) : TasksState × List StorageEffect :=
  if s.tasks.any (fun t => t.id == id) then
    let s' : TasksState :=
      { s with tasks := updateFirst (fun t => t.id == id) toggleTask s.tasks }
    (s', [saveEffect s'])
  else
    (s, [])

/-- The `deleteTask` reducer: `tasks.filter(task => task.id !== id)`,
then `deletedIds.push(id)` (unconditionally), then persist. -/
def deleteTask (s : TasksState) (id : Nat) : TasksState × List StorageEffect :=
  let s' : TasksState :=
    ⟨s.tasks.filter (fun t => t.id != id), s.nextId, s.deletedIds ++ [id]⟩
  (s', [saveEffect s'])

/-- `Number.MAX_SAFE_INTEGER`. -/
def maxSafeInteger : Nat := 2 ^ 53 - 1

/-- `taskIds.map((id, index) => [id, index])`: the association list fed
to the `Map` constructor, with an explicit running index. -/
def enumPairs (k : Nat) : List Nat → List (Nat × Nat)
  | [] => []
  | i :: rest => (i, k) :: enumPairs (k + 1) rest

/-- `orderMap.get(id) ?? Number.MAX_SAFE_INTEGER`.  A JavaScript `Map`
built from an association list keeps the last entry for a duplicated
key, which is exactly the first hit in the reversed list. -/
def orderKey (ids : List Nat) (i : Nat) : Nat :=
  (((enumPairs 0 ids).reverse).lookup i).getD maxSafeInteger

/-- The `updateTaskOrder` reducer: stable-sort the tasks by their
position in the submitted id sequence (absent ids sort as
`MAX_SAFE_INTEGER`), then persist. -/
def updateTaskOrder (s : TasksState) (ids : List Nat) : TasksState × List StorageEffect :=
  let s' : TasksState :=
    { s with tasks :=
        List.insertionSort (fun a b => orderKey ids a.id ≤ orderKey ids b.id) s.tasks }
  (s', [saveEffect s'])

/-- The `resetToSampleData` reducer: remove the persisted keys and
reseed tasks/nextId/deletedIds from the sample data. -/
def resetToSampleData (_s : TasksState) : TasksState × List StorageEffect :=
  (⟨sampleTasks, 8, []⟩, [.clear])

/-- A dispatched action of the slice, for reasoning about sequences of
mutations. -/
inductive Action : Type
  | add (p : NewTask)
  | update (p : TaskPatch)
  | toggle (id : Nat)
  | delete (id : Nat)
  | reorder (ids : List Nat)
  | reset
deriving DecidableEq, Repr

/-- The state transition of one dispatched action (storage effects
dropped). -/
def applyAction (s : TasksState) : Action → TasksState
  | .add p => (addTask s p).1
  | .update p => (updateTask s p).1
  | .toggle i => (toggleTaskStatus s i).1
  | .delete i => (deleteTask s i).1
  | .reorder ids => (updateTaskOrder s ids).1
  | .reset => (resetToSampleData s).1

/-- Run a sequence of actions from a state. -/
def runActions (s : TasksState) : List Action → TasksState
  | [] => s
  | a :: rest => runActions (applyAction s a) rest

/-- An action is admissible in a state when it is anything but a
delete, or a delete whose id is present in the task collection. -/
def actionOk (s : TasksState) : Action → Bool
  | .delete i => s.tasks.any (fun t => t.id == i)
  | _ => true

/-- A run is good when every `deleteTask` in it targets an id that is
present in the task collection at the moment of the deletion. -/
def goodRun (s : TasksState) : List Action → Bool
  | [] => true
  | a :: rest => actionOk s a && goodRun (applyAction s a) rest

-- ----------------------
-- Selectors
-- ----------------------

/-- `String.prototype.toLowerCase`, modelled on the ASCII fragment. -/
def lower (s : String) : String := ⟨s.data.map Char.toLower⟩

/-- `String.prototype.trim`: strip leading and trailing whitespace. -/
def jsTrim (s : String) : String :=
  ⟨((s.data.dropWhile Char.isWhitespace).reverse.dropWhile Char.isWhitespace).reverse⟩

/-- `String.prototype.includes`: `needle` occurs contiguously in the
character sequence. -/
def containsSub (needle : List Char) : List Char → Bool
  | [] => needle.isEmpty
  | c :: rest => needle.isPrefixOf (c :: rest) || containsSub needle rest

/-- `selectTasksBySearchTerm` (written over a task list rather than the
root state): an empty-after-trim term returns the collection as is,
otherwise filter by case-insensitive substring match on the title. -/
def selectTasksBySearchTerm (searchTerm : String) (tasks : List Task) : List Task :=
  if jsTrim searchTerm = "" then tasks
  else
    let term := lower searchTerm
    tasks.filter (fun task => containsSub term.data (lower task.title).data)

/-- The `keyof Task` argument of `selectTasksSortedByField`. -/
inductive SortField : Type
  | id
  | title
  | status
  | deadline
  | category
  | priority
deriving DecidableEq, Repr

/-- The `'asc' | 'desc'` argument. -/
inductive SortDirection : Type
  | asc
  | desc
deriving DecidableEq, Repr

/-- `String(task.status)`. -/
def statusStr : TaskStatus → String
  | .pending => "pending"
  | .completed => "completed"

/-- `String(task.category)`. -/
def categoryStr : TaskCategory → String
  | .work => "work"
  | .personal => "personal"
  | .shopping => "shopping"
  | .health => "health"
  | .finance => "finance"
  | .other => "other"

/-- `String(task.priority)`. -/
def priorityStr : TaskPriority → String
  | .high => "high"
  | .medium => "medium"
  | .low => "low"

/-- `String(a[field])`: the text representation of a task field (a
numeric id renders as its decimal string). -/
def fieldStr (f : SortField) (t : Task) : String :=
  match f with
  | .id => toString t.id
  | .title => t.title
  | .status => statusStr t.status
  | .deadline => t.deadline
  | .category => categoryStr t.category
  | .priority => priorityStr t.priority

/-- Lexicographic `<` on character sequences: the JavaScript relational
comparison of two strings (code-unit order). -/
def charsLt : List Char → List Char → Bool
  | [], [] => false
  | [], _ :: _ => true
  | _ :: _, [] => false
  | a :: as, b :: bs => if a < b then true else if b < a then false else charsLt as bs

/-- `a < b` for JavaScript strings. -/
def strLt (a b : String) : Bool := charsLt a.data b.data

/-- `a <= b` for JavaScript strings (i.e. not `b < a`). -/
def strLe (a b : String) : Bool := !(strLt b a)

/-- `priorityValue = { high: 0, medium: 1, low: 2 }`. -/
def priorityValue : TaskPriority → Int
  | .high => 0
  | .medium => 1
  | .low => 2

/-- Days since the Unix epoch of a civil date (Gregorian, proleptic);
models what `new Date("YYYY-MM-DD")` resolves the date to (UTC). -/
def daysFromCivil (y : Int) (m d : Nat) : Int :=
  let yAdj : Int := if m ≤ 2 then y - 1 else y
  let era : Int := Int.fdiv yAdj 400
  let yoe : Int := yAdj - era * 400
  let mp : Int := Int.ofNat ((m + 9) % 12)
  let doy : Int := Int.fdiv (153 * mp + 2) 5 + (d : Int) - 1
  let doe : Int := yoe * 365 + Int.fdiv yoe 4 - Int.fdiv yoe 100 + doy
  era * 146097 + doe - 719468

/-- `new Date(s).getTime()` for a well-formed ISO `"YYYY-MM-DD"` string
(milliseconds since the epoch).  Malformed strings give `NaN` in
JavaScript; none of the claims exercise that branch, so they are mapped
to 0 here. -/
def dateMs (s : String) : Int :=
  match (s.split (· == '-')).map String.toNat? with
  | [some y, some m, some d] => 86400000 * daysFromCivil (Int.ofNat y) m d
  | _ => 0

/-- The comparator closure inside `selectTasksSortedByField`, returning
the JavaScript comparator value (negative / zero / positive). -/
def fieldCmp (f : SortField) (dir : SortDirection) (a b : Task) : Int :=
  match f with
  | .deadline =>
    let dateA := dateMs a.deadline
    let dateB := dateMs b.deadline
    match dir with
    | .asc => dateA - dateB
    | .desc => dateB - dateA
  | .priority =>
    let valueA := priorityValue a.priority
    let valueB := priorityValue b.priority
    match dir with
    | .asc => valueA - valueB
    | .desc => valueB - valueA
  | _ =>
    let valueA := lower (fieldStr f a)
    let valueB := lower (fieldStr f b)
    if strLt valueA valueB then (match dir with | .asc => -1 | .desc => 1)
    else if strLt valueB valueA then (match dir with | .asc => 1 | .desc => -1)
    else 0

/-- `selectTasksSortedByField` (over a task list): `[...tasks].sort`
with the field comparator; `sort` is stable per ECMA-262. -/
def selectTasksSortedByField (f : SortField) (dir : SortDirection)
    (tasks : List Task) : List Task :=
  List.insertionSort (fun a b => fieldCmp f dir a b ≤ 0) tasks

/-- The `TaskStatistics` record.  The per-key count objects are modelled
as total functions on the (closed) enumerations; a category or priority
absent from the collection has count 0, matching a key absent from the
JavaScript record. -/
structure TaskStatistics where
  totalTasks : Nat
  completedTasks : Nat
  pendingTasks : Nat
  completionRate : Nat
  categoryCounts : TaskCategory → Nat
  priorityCounts : TaskPriority → Nat
  overdueCount : Nat
  upcomingCount : Nat

/-- `Math.ceil` of the exact ratio `a / b` for positive `b`. -/
def ceilDiv (a b : Int) : Int := -(Int.fdiv (-a) b)

/-- `selectTaskStatistics` (over a task list).  `nowMs` stands for
`new Date()` taken at the start of the computation; only the two
deadline statistics depend on it. -/
def selectTaskStatistics (nowMs : Int) (tasks : List Task) : TaskStatistics :=
  let totalTasks := tasks.length
  let completedTasks := tasks.countP (fun t => t.status == .completed)
  let pendingTasks := totalTasks - completedTasks
  { totalTasks := totalTasks
    completedTasks := completedTasks
    pendingTasks := pendingTasks
    completionRate :=
      if totalTasks = 0 then 0 else (completedTasks * 200 + totalTasks) / (2 * totalTasks)
    categoryCounts := fun c => tasks.countP (fun t => t.category == c)
    priorityCounts := fun p => tasks.countP (fun t => t.priority == p)
    overdueCount := tasks.countP (fun t => t.status == .pending && dateMs t.deadline < nowMs)
    upcomingCount := tasks.countP (fun t =>
      let diffDays := ceilDiv (dateMs t.deadline - nowMs) 86400000
      t.status == .pending && 0 ≤ diffDays && diffDays ≤ 7) }

/-- The six categories (for summing the per-category counts). -/
def allCategories : List TaskCategory :=
  [.work, .personal, .shopping, .health, .finance, .other]

/-- The three priorities (for summing the per-priority counts). -/
def allPriorities : List TaskPriority :=
  [.high, .medium, .low]

/-- The first sample task, used as a concrete witness input. -/
def sampleTask1 : Task := ⟨1, "Fix login bug", .pending, "2025-05-10", .work, .high⟩

/-- A generic creation payload used as a concrete witness input. -/
def sampleNewTask : NewTask := ⟨"New task", .pending, "2025-07-01", .work, .low⟩

/-- Two tasks whose ids compare differently as numbers (2 < 10) and as
decimal strings ("10" < "2"). -/
def idDemoTasks : List Task :=
  [mkTask 2 ⟨"a", .pending, "2025-01-01", .work, .low⟩,
   mkTask 10 ⟨"b", .pending, "2025-01-02", .work, .medium⟩]

/-- Well-formedness of a slice state: task ids are unique, the deleted
pool is duplicate-free and disjoint from the live ids, and `nextId` is
strictly above every live and pooled id. -/
def StateInv (s : TasksState) : Prop :=
  (s.tasks.map Task.id).Nodup ∧ s.deletedIds.Nodup ∧
  (∀ i ∈ s.deletedIds, i ∉ s.tasks.map Task.id) ∧
  (∀ i ∈ s.tasks.map Task.id, i < s.nextId) ∧
  (∀ i ∈ s.deletedIds, i < s.nextId)

-- ----------------------
-- Helper lemmas
-- ----------------------

theorem updateFirst_any {α : Type} (p : α → Bool) (f : α → α) (hpf : ∀ a, p (f a) = p a) :
    ∀ l : List α, (updateFirst p f l).any p = l.any p
  | [] => rfl
  | a :: l => by
    by_cases h : p a = true
    · simp [updateFirst, h, hpf a]
    · simp [updateFirst, h, updateFirst_any p f hpf l]

theorem updateFirst_updateFirst {α : Type} (p : α → Bool) (f : α → α)
    (hpf : ∀ a, p a = true → p (f a) = true) (hff : ∀ a, p a = true → f (f a) = a) :
    ∀ l : List α, updateFirst p f (updateFirst p f l) = l
  | [] => rfl
  | a :: l => by
    by_cases h : p a = true
    · simp [updateFirst, h, hpf a h, hff a h]
    · simp [updateFirst, h, updateFirst_updateFirst p f hpf hff l]

theorem updateFirst_split {α : Type} (p : α → Bool) (f : α → α) :
    ∀ l : List α, l.any p = true →
      ∃ pre a post, l = pre ++ a :: post ∧ (∀ x ∈ pre, p x = false) ∧ p a = true ∧
        updateFirst p f l = pre ++ f a :: post
  | [], h => by simp at h
  | b :: l, h => by
    by_cases hb : p b = true
    · exact ⟨[], b, l, rfl, by simp, hb, by simp [updateFirst, hb]⟩
    · have hl : l.any p = true := by
        rcases List.any_eq_true.1 h with ⟨x, hx, hpx⟩
        rcases List.mem_cons.1 hx with rfl | hx
        · exact absurd hpx hb
        · exact List.any_eq_true.2 ⟨x, hx, hpx⟩
      obtain ⟨pre, a, post, h1, h2, h3, h4⟩ := updateFirst_split p f l hl
      refine ⟨b :: pre, a, post, by simp [h1], ?_, h3, by simp [updateFirst, hb, h4]⟩
      intro x hx
      rcases List.mem_cons.1 hx with rfl | hx
      · simpa using hb
      · exact h2 x hx

theorem insertionSort_head_min (l : List Nat) (hl : l ≠ []) :
    (List.insertionSort (· ≤ ·) l).headI ∈ l ∧
      ∀ x ∈ l, (List.insertionSort (· ≤ ·) l).headI ≤ x := by
  have hperm := List.perm_insertionSort (· ≤ ·) l
  have hsorted := List.sorted_insertionSort (· ≤ ·) l
  cases hs : List.insertionSort (· ≤ ·) l with
  | nil =>
    rw [hs] at hperm
    exact absurd hperm.symm.eq_nil hl
  | cons a t =>
    rw [hs] at hperm hsorted
    have hrel := (List.sorted_cons.1 hsorted).1
    constructor
    · exact hperm.subset (by simp [List.headI])
    · intro x hx
      rcases List.mem_cons.1 (hperm.symm.subset hx) with rfl | hxt
      · simp [List.headI]
      · simpa [List.headI] using hrel x hxt

-- ----------------------
-- Claim theorems
-- ----------------------

/-- C9: `deleteTask` removes every task whose id equals the argument
(all occurrences, duplicates included), and appends the argument to
`deletedIds` unconditionally — even when no task with that id was
present. -/
theorem claim9_delete (s : TasksState) (i : Nat) :
    (∀ t ∈ (deleteTask s i).1.tasks, t.id ≠ i) ∧
      (deleteTask s i).1.deletedIds = s.deletedIds ++ [i] := by
  constructor
  · intro t ht
    have h := List.mem_filter.1 ht
    simpa [bne_iff_ne] using h.2
  · rfl

/-- C4: `updateTask` with an id matching no task (with any partial
payload) returns the state unchanged and performs no storage write, and
the same holds for `toggleTaskStatus` of an absent id. -/
theorem claim4_missing_id_noop (s : TasksState) (p : TaskPatch) (j : Nat)
    (h1 : ∀ t ∈ s.tasks, t.id ≠ p.id) (h2 : ∀ t ∈ s.tasks, t.id ≠ j) :
    updateTask s p = (s, []) ∧ toggleTaskStatus s j = (s, []) := by
  have ha1 : s.tasks.any (fun t => t.id == p.id) = false := by
    rw [List.any_eq_false]
    intro t ht
    simpa using h1 t ht
  have ha2 : s.tasks.any (fun t => t.id == j) = false := by
    rw [List.any_eq_false]
    intro t ht
    simpa using h2 t ht
  constructor
  · simp [updateTask, ha1]
  · simp [toggleTaskStatus, ha2]

theorem claim4_missing_id_noop_witness :
    (∀ t ∈ initialState.tasks, t.id ≠ 100) ∧ (∀ t ∈ initialState.tasks, t.id ≠ 99) ∧
      updateTask initialState { id := 100, title := some "x" } = (initialState, []) ∧
      toggleTaskStatus initialState 99 = (initialState, []) := by
  refine ⟨by decide, by decide, ?_, ?_⟩
  · exact (claim4_missing_id_noop initialState { id := 100, title := some "x" } 99
      (by decide) (by decide)).1
  · exact (claim4_missing_id_noop initialState { id := 100, title := some "x" } 99
      (by decide) (by decide)).2

/-- C2: when `deletedIds` is non-empty, `addTask` assigns the smallest
deleted id and leaves `nextId` alone; in particular, from the seeded
sample state, `deleteTask 3` followed by `addTask fields` yields a new
task with id 3 appended at the end and `nextId` still 8. -/
theorem claim2_id_reuse :
    (∀ (s : TasksState) (p : NewTask), s.deletedIds ≠ [] →
      ∃ m, m ∈ s.deletedIds ∧ (∀ x ∈ s.deletedIds, m ≤ x) ∧
        (addTask s p).1.tasks = s.tasks ++ [mkTask m p] ∧
        (addTask s p).1.nextId = s.nextId)
    ∧ (∀ q : NewTask,
        (addTask (deleteTask initialState 3).1 q).1.tasks.map Task.id
            = [1, 2, 4, 5, 6, 7, 3]
        ∧ (addTask (deleteTask initialState 3).1 q).1.nextId = 8) := by
  constructor
  · intro s p hne
    have hpos : 0 < s.deletedIds.length := List.length_pos.2 hne
    obtain ⟨hmem, hmin⟩ := insertionSort_head_min s.deletedIds hne
    exact ⟨(List.insertionSort (· ≤ ·) s.deletedIds).headI, hmem, hmin,
      by simp [addTask, hpos], by simp [addTask, hpos]⟩
  · intro q
    exact ⟨rfl, rfl⟩

theorem claim2_id_reuse_witness :
    (⟨sampleTasks, 8, [5, 3]⟩ : TasksState).deletedIds ≠ [] ∧
      ∃ m, m ∈ (⟨sampleTasks, 8, [5, 3]⟩ : TasksState).deletedIds ∧
        (∀ x ∈ (⟨sampleTasks, 8, [5, 3]⟩ : TasksState).deletedIds, m ≤ x) ∧
        (addTask ⟨sampleTasks, 8, [5, 3]⟩ ⟨"w", .pending, "2025-01-01", .work, .low⟩).1.tasks
          = sampleTasks ++ [mkTask m ⟨"w", .pending, "2025-01-01", .work, .low⟩] ∧
        (addTask ⟨sampleTasks, 8, [5, 3]⟩ ⟨"w", .pending, "2025-01-01", .work, .low⟩).1.nextId = 8 :=
  ⟨by decide, claim2_id_reuse.1 ⟨sampleTasks, 8, [5, 3]⟩ _ (by decide)⟩

/-- C5: the statistics aggregates are consistent for every collection:
completed + pending = total, and the per-category and per-priority
counts each sum to the total. -/
theorem claim5_statistics_consistent (nowMs : Int) (tasks : List Task) :
    (selectTaskStatistics nowMs tasks).completedTasks
        + (selectTaskStatistics nowMs tasks).pendingTasks
      = (selectTaskStatistics nowMs tasks).totalTasks
    ∧ (allCategories.map (selectTaskStatistics nowMs tasks).categoryCounts).sum
      = (selectTaskStatistics nowMs tasks).totalTasks
    ∧ (allPriorities.map (selectTaskStatistics nowMs tasks).priorityCounts).sum
      = (selectTaskStatistics nowMs tasks).totalTasks := by
  refine ⟨?_, ?_, ?_⟩
  · have hle : tasks.countP (fun t => t.status == .completed) ≤ tasks.length :=
      List.countP_le_length (fun (t : Task) => t.status == TaskStatus.completed)
    simp only [selectTaskStatistics]
    omega
  · simp only [selectTaskStatistics, allCategories, List.map_cons, List.map_nil, List.sum_cons,
      List.sum_nil]
    induction tasks with
    | nil => simp
    | cons a l ih =>
      rcases h : a.category <;>
        simp [List.countP_cons, h] <;> omega
  · simp only [selectTaskStatistics, allPriorities, List.map_cons, List.map_nil, List.sum_cons,
      List.sum_nil]
    induction tasks with
    | nil => simp
    | cons a l ih =>
      rcases h : a.priority <;>
        simp [List.countP_cons, h] <;> omega

theorem updateFirst_append {α : Type} (p : α → Bool) (f : α → α) (a : α) (post : List α)
    (ha : p a = true) :
    ∀ pre : List α, (∀ x ∈ pre, p x = false) →
      updateFirst p f (pre ++ a :: post) = pre ++ f a :: post
  | [], _ => by simp [updateFirst, ha]
  | b :: pre, hpre => by
    have hb : p b = false := hpre b (by simp)
    simp only [List.cons_append, updateFirst, hb]
    simp [updateFirst_append p f a post ha pre (fun x hx => hpre x (by simp [hx]))]

/-- C7: toggling a task status twice restores the whole state, and a
single toggle on a task whose status is pending (the first task with
the given id) makes it completed and raises the completed-count
statistic by exactly 1. -/
theorem claim7_toggle :
    (∀ (s : TasksState) (i : Nat), (toggleTaskStatus (toggleTaskStatus s i).1 i).1 = s)
    ∧ (∀ (s : TasksState) (i : Nat) (nowMs : Int) (pre post : List Task) (t : Task),
        s.tasks = pre ++ t :: post → (∀ x ∈ pre, x.id ≠ i) → t.id = i →
        t.status = TaskStatus.pending →
        (toggleTaskStatus s i).1.tasks
            = pre ++ { t with status := TaskStatus.completed } :: post
        ∧ (selectTaskStatistics nowMs (toggleTaskStatus s i).1.tasks).completedTasks
            = (selectTaskStatistics nowMs s.tasks).completedTasks + 1) := by
  have hfst : ∀ (s : TasksState) (i : Nat), s.tasks.any (fun t => t.id == i) = true →
      (toggleTaskStatus s i).1
        = { s with tasks := updateFirst (fun t => t.id == i) toggleTask s.tasks } := by
    intro s i h
    simp [toggleTaskStatus, h]
  constructor
  · intro s i
    by_cases h : s.tasks.any (fun t => t.id == i) = true
    · have h2 : ((toggleTaskStatus s i).1).tasks.any (fun t => t.id == i) = true := by
        rw [hfst s i h]
        show (updateFirst (fun t => t.id == i) toggleTask s.tasks).any (fun t => t.id == i) = true
        rw [updateFirst_any (fun t : Task => t.id == i) toggleTask (fun a => rfl)]
        exact h
      rw [hfst _ i h2, hfst s i h]
      show TasksState.mk
        (updateFirst (fun t => t.id == i) toggleTask
          (updateFirst (fun t => t.id == i) toggleTask s.tasks)) s.nextId s.deletedIds = s
      rw [updateFirst_updateFirst (fun t : Task => t.id == i) toggleTask
        (fun a ha => ha)
        (fun a _ => by
          obtain ⟨aid, atitle, astatus, adl, acat, apri⟩ := a
          cases astatus <;> rfl) s.tasks]
    · simp [toggleTaskStatus, h]
  · intro s i nowMs pre post t hsplit hpre hid hst
    have hpt : (t.id == i) = true := by simpa using hid
    have hp : ∀ x ∈ pre, (fun t : Task => t.id == i) x = false := by
      intro x hx
      simpa using hpre x hx
    have hany : s.tasks.any (fun t => t.id == i) = true := by
      rw [hsplit]
      exact List.any_eq_true.2 ⟨t, by simp, hpt⟩
    have hft : toggleTask t = { t with status := TaskStatus.completed } := by
      unfold toggleTask
      rw [hst]
      rfl
    have h1 : (toggleTaskStatus s i).1.tasks = pre ++ toggleTask t :: post := by
      rw [hfst s i hany]
      show updateFirst (fun t => t.id == i) toggleTask s.tasks = pre ++ toggleTask t :: post
      rw [hsplit]
      exact updateFirst_append (fun t : Task => t.id == i) toggleTask t post hpt pre hp
    have h2 : (toggleTaskStatus s i).1.tasks
        = pre ++ ({ t with status := TaskStatus.completed }) :: post := by
      rw [h1, hft]
    refine ⟨h2, ?_⟩
    simp only [selectTaskStatistics, h2, hsplit, List.countP_append, List.countP_cons]
    simp [hst]
    omega

/-- C10: `updateTask` on an existing id is a frame-preserving point
update: the collection splits around the first task matching the id,
only that task is rewritten, the length is unchanged, the rewritten
task keeps its id, fields absent from the payload keep their prior
values, and the rest of the state is untouched. -/
theorem claim10_update_frame (s : TasksState) (p : TaskPatch)
    (h : ∃ t ∈ s.tasks, t.id = p.id) :
    ∃ pre t post,
      s.tasks = pre ++ t :: post ∧
      (∀ x ∈ pre, x.id ≠ p.id) ∧
      t.id = p.id ∧
      (updateTask s p).1.tasks = pre ++ applyPatch t p :: post ∧
      (updateTask s p).1.tasks.length = s.tasks.length ∧
      (applyPatch t p).id = t.id ∧
      (p.title = none → (applyPatch t p).title = t.title) ∧
      (p.status = none → (applyPatch t p).status = t.status) ∧
      (p.deadline = none → (applyPatch t p).deadline = t.deadline) ∧
      (p.category = none → (applyPatch t p).category = t.category) ∧
      (p.priority = none → (applyPatch t p).priority = t.priority) ∧
      (updateTask s p).1.nextId = s.nextId ∧
      (updateTask s p).1.deletedIds = s.deletedIds := by
  obtain ⟨t0, ht0, hid0⟩ := h
  have hany : s.tasks.any (fun t => t.id == p.id) = true :=
    List.any_eq_true.2 ⟨t0, ht0, by simpa using hid0⟩
  obtain ⟨pre, a, post, h1, h2, h3, h4⟩ :=
    updateFirst_split (fun t : Task => t.id == p.id) (fun t => applyPatch t p) s.tasks hany
  have hup : (updateTask s p).1.tasks
      = updateFirst (fun t : Task => t.id == p.id) (fun t => applyPatch t p) s.tasks := by
    simp [updateTask, hany]
  have haid : a.id = p.id := by simpa using h3
  refine ⟨pre, a, post, h1, ?_, haid, ?_, ?_, ?_, ?_, ?_, ?_, ?_, ?_, ?_, ?_⟩
  · intro x hx
    simpa using h2 x hx
  · rw [hup, h4]
  · rw [hup, h4, h1]
    simp
  · simp [applyPatch, haid]
  · intro hn; simp [applyPatch, hn]
  · intro hn; simp [applyPatch, hn]
  · intro hn; simp [applyPatch, hn]
  · intro hn; simp [applyPatch, hn]
  · intro hn; simp [applyPatch, hn]
  · simp [updateTask, hany]
  · simp [updateTask, hany]

theorem mem_dropWhile_of_mem {α : Type} (q : α → Bool) (a : α) (ha : q a = false) :
    ∀ l : List α, a ∈ l → a ∈ l.dropWhile q
  | [], h => absurd h (List.not_mem_nil a)
  | b :: l, h => by
    by_cases hb : q b = true
    · rcases List.mem_cons.1 h with rfl | hmem
      · rw [hb] at ha; cases ha
      · simpa [List.dropWhile_cons, hb] using mem_dropWhile_of_mem q a ha l hmem
    · simpa [List.dropWhile_cons, hb] using h

theorem jsTrim_eq_empty (s : String) (h : ∀ c ∈ s.data, c.isWhitespace = true) :
    jsTrim s = "" := by
  have h1 : List.dropWhile Char.isWhitespace s.data = [] :=
    List.dropWhile_eq_nil_iff.2 (by simpa using h)
  unfold jsTrim
  rw [h1]
  rfl

theorem jsTrim_ne_empty (s : String) (c : Char) (hc : c ∈ s.data)
    (hw : c.isWhitespace = false) : jsTrim s ≠ "" := by
  have h1 := mem_dropWhile_of_mem Char.isWhitespace c hw s.data hc
  have h2 := mem_dropWhile_of_mem Char.isWhitespace c hw _ (List.mem_reverse.2 h1)
  have h3 : c ∈ ((s.data.dropWhile Char.isWhitespace).reverse.dropWhile
      Char.isWhitespace).reverse := List.mem_reverse.2 h2
  intro he
  unfold jsTrim at he
  have hnil : ((s.data.dropWhile Char.isWhitespace).reverse.dropWhile
      Char.isWhitespace).reverse = [] := by
    have := congrArg String.data he
    simpa using this
  rw [hnil] at h3
  exact absurd h3 (List.not_mem_nil c)

/-- C8: `selectTasksBySearchTerm` with an empty or whitespace-only term
returns the collection unfiltered; with a term containing a
non-whitespace character it returns exactly the tasks whose lowercased
title contains the lowercased term, hence the empty list when no title
matches. -/
theorem claim8_search (term : String) (tasks : List Task) :
    ((∀ c ∈ term.data, c.isWhitespace = true) →
        selectTasksBySearchTerm term tasks = tasks)
    ∧ ((∃ c ∈ term.data, c.isWhitespace = false) →
        selectTasksBySearchTerm term tasks
          = tasks.filter (fun t => containsSub (lower term).data (lower t.title).data))
    ∧ ((∃ c ∈ term.data, c.isWhitespace = false) →
        (∀ t ∈ tasks, containsSub (lower term).data (lower t.title).data = false) →
        selectTasksBySearchTerm term tasks = []) := by
  refine ⟨?_, ?_, ?_⟩
  · intro h
    simp [selectTasksBySearchTerm, jsTrim_eq_empty term h]
  · rintro ⟨c, hc, hw⟩
    simp [selectTasksBySearchTerm, jsTrim_ne_empty term c hc hw]
  · rintro ⟨c, hc, hw⟩ hnone
    rw [selectTasksBySearchTerm, if_neg (jsTrim_ne_empty term c hc hw)]
    rw [List.filter_eq_nil_iff]
    intro a ha
    simp [hnone a ha]

theorem claim8_search_witness :
    (∃ c ∈ "zzz".data, c.isWhitespace = false) ∧
      (∀ t ∈ initialState.tasks,
        containsSub (lower "zzz").data (lower t.title).data = false) ∧
      selectTasksBySearchTerm "zzz" initialState.tasks = [] :=
  ⟨by decide, by decide,
    (claim8_search "zzz" initialState.tasks).2.2 (by decide) (by decide)⟩

theorem claim7_toggle_witness :
    (initialState.tasks = [] ++ sampleTask1 :: initialState.tasks.drop 1) ∧
      (∀ x ∈ ([] : List Task), x.id ≠ 1) ∧ sampleTask1.id = 1 ∧
      sampleTask1.status = TaskStatus.pending ∧
      ((toggleTaskStatus initialState 1).1.tasks
          = [] ++ { sampleTask1 with status := TaskStatus.completed }
              :: initialState.tasks.drop 1
        ∧ (selectTaskStatistics 0 (toggleTaskStatus initialState 1).1.tasks).completedTasks
            = (selectTaskStatistics 0 initialState.tasks).completedTasks + 1) :=
  ⟨rfl, by simp, rfl, rfl,
    claim7_toggle.2 initialState 1 0 [] (initialState.tasks.drop 1) sampleTask1
      rfl (by simp) rfl rfl⟩

theorem claim10_update_frame_witness :
    (∃ t ∈ initialState.tasks, t.id = (⟨2, some "Rewrite tests", none, none, none, none⟩ : TaskPatch).id) ∧
      ∃ pre t post,
        initialState.tasks = pre ++ t :: post ∧
        (∀ x ∈ pre, x.id ≠ (2 : Nat)) ∧
        t.id = 2 ∧
        (updateTask initialState ⟨2, some "Rewrite tests", none, none, none, none⟩).1.tasks
          = pre ++ applyPatch t ⟨2, some "Rewrite tests", none, none, none, none⟩ :: post :=
  ⟨⟨⟨2, "Write unit tests", .completed, "2025-06-01", .work, .medium⟩, by decide, rfl⟩,
    by
      obtain ⟨pre, t, post, h1, h2, h3, h4, -⟩ :=
        claim10_update_frame initialState ⟨2, some "Rewrite tests", none, none, none, none⟩
          ⟨⟨2, "Write unit tests", .completed, "2025-06-01", .work, .medium⟩, by decide, rfl⟩
      exact ⟨pre, t, post, h1, h2, h3, h4⟩⟩

theorem charsLt_asymm : ∀ as bs : List Char, charsLt as bs = true → charsLt bs as = false
  | [], [], h => by simp [charsLt] at h
  | [], _ :: _, _ => rfl
  | _ :: _, [], h => by simp [charsLt] at h
  | a :: as, b :: bs, h => by
    by_cases hab : a < b
    · simp [charsLt, lt_asymm hab, hab]
    · by_cases hba : b < a
      · simp [charsLt, hab, hba] at h
      · have h' : charsLt as bs = true := by simpa [charsLt, hab, hba] using h
        simpa [charsLt, hab, hba] using charsLt_asymm as bs h'

theorem charsLt_neg_trans :
    ∀ xs ys zs : List Char, charsLt xs ys = false → charsLt ys zs = false →
      charsLt xs zs = false
  | [], [], zs, _, h2 => h2
  | [], _ :: _, _, h1, _ => by simp [charsLt] at h1
  | _ :: _, _, [], _, _ => by simp [charsLt]
  | x :: xs, [], _ :: _, _, h2 => by simp [charsLt] at h2
  | x :: xs, y :: ys, z :: zs, h1, h2 => by
    have hxy : ¬ x < y := by
      intro hh
      simp [charsLt, hh] at h1
    have hyz : ¬ y < z := by
      intro hh
      simp [charsLt, hh] at h2
    by_cases hxz : x < z
    · exact absurd hxz (not_lt.2 (le_trans (not_lt.1 hyz) (not_lt.1 hxy)))
    · by_cases hzx : z < x
      · simp [charsLt, hxz, hzx]
      · have hxz' : x = z := le_antisymm (not_lt.1 hzx) (not_lt.1 hxz)
        have hyx : ¬ y < x := by
          intro hh
          rw [hxz'] at hh
          exact hyz hh
        have hzy : ¬ z < y := by
          intro hh
          rw [← hxz'] at hh
          exact hxy hh
        have h1' : charsLt xs ys = false := by simpa [charsLt, hxy, hyx] using h1
        have h2' : charsLt ys zs = false := by simpa [charsLt, hyz, hzy] using h2
        simpa [charsLt, hxz, hzx] using charsLt_neg_trans xs ys zs h1' h2'

theorem strLt_asymm (a b : String) (h : strLt a b = true) : strLt b a = false :=
  charsLt_asymm a.data b.data h

theorem strLe_total (a b : String) : strLe a b = true ∨ strLe b a = true := by
  by_cases h : strLt b a = true
  · right
    simp [strLe, strLt_asymm b a h]
  · left
    simp [strLe]
    simpa using h

theorem strLe_trans (a b c : String) (h1 : strLe a b = true) (h2 : strLe b c = true) :
    strLe a c = true := by
  simp only [strLe, Bool.not_eq_true'] at *
  exact charsLt_neg_trans c.data b.data a.data h2 h1

theorem fieldCmp_asc_le (f : SortField) (h1 : f ≠ SortField.deadline)
    (h2 : f ≠ SortField.priority) (a b : Task) :
    (fieldCmp f .asc a b ≤ 0)
      ↔ strLe (lower (fieldStr f a)) (lower (fieldStr f b)) = true := by
  have key : ∀ va vb : String,
      (((if strLt va vb then (-1 : Int) else if strLt vb va then 1 else 0) ≤ 0)
        ↔ strLe va vb = true) := by
    intro va vb
    by_cases hab : strLt va vb = true
    · simp [hab, strLe, strLt_asymm va vb hab]
    · by_cases hba : strLt vb va = true
      · simp [hab, hba, strLe]
      · simp [hab, hba, strLe]
  cases f
  case deadline => exact absurd rfl h1
  case priority => exact absurd rfl h2
  all_goals exact key _ _

theorem fieldCmp_desc_le (f : SortField) (h1 : f ≠ SortField.deadline)
    (h2 : f ≠ SortField.priority) (a b : Task) :
    (fieldCmp f .desc a b ≤ 0)
      ↔ strLe (lower (fieldStr f b)) (lower (fieldStr f a)) = true := by
  have key : ∀ va vb : String,
      (((if strLt va vb then (1 : Int) else if strLt vb va then -1 else 0) ≤ 0)
        ↔ strLe vb va = true) := by
    intro va vb
    by_cases hab : strLt va vb = true
    · simp [hab, strLe]
    · by_cases hba : strLt vb va = true
      · simp [hab, hba, strLe, strLt_asymm vb va hba]
      · simp [hab, hba, strLe]
  cases f
  case deadline => exact absurd rfl h1
  case priority => exact absurd rfl h2
  all_goals exact key _ _

theorem fieldCmp_neg (f : SortField) (a b : Task) :
    fieldCmp f .desc a b = -(fieldCmp f .asc a b) := by
  have key : ∀ va vb : String,
      ((if strLt va vb then (1 : Int) else if strLt vb va then -1 else 0)
        = -(if strLt va vb then (-1 : Int) else if strLt vb va then 1 else 0)) := by
    intro va vb
    by_cases hab : strLt va vb = true
    · simp [hab]
    · by_cases hba : strLt vb va = true
      · simp [hab, hba]
      · simp [hab, hba]
  cases f
  case deadline =>
    show dateMs b.deadline - dateMs a.deadline = -(dateMs a.deadline - dateMs b.deadline)
    omega
  case priority =>
    show priorityValue b.priority - priorityValue a.priority
      = -(priorityValue a.priority - priorityValue b.priority)
    omega
  all_goals exact key _ _

/-- C6: for every field other than deadline and priority,
`selectTasksSortedByField` permutes the collection into
case-insensitive lexicographic order of the field's text representation
(ascending or, for `desc`, the order of the negated comparator — the
comparator literally negates), and id sort is therefore lexicographic
on the decimal strings, not numeric: ids 2 and 10 sort as 10 before 2. -/
theorem claim6_text_sort (f : SortField) (h1 : f ≠ SortField.deadline)
    (h2 : f ≠ SortField.priority) :
    (∀ (dir : SortDirection) (tasks : List Task),
        (selectTasksSortedByField f dir tasks).Perm tasks)
    ∧ (∀ tasks : List Task, (selectTasksSortedByField f .asc tasks).Pairwise
        (fun a b => strLe (lower (fieldStr f a)) (lower (fieldStr f b)) = true))
    ∧ (∀ tasks : List Task, (selectTasksSortedByField f .desc tasks).Pairwise
        (fun a b => strLe (lower (fieldStr f b)) (lower (fieldStr f a)) = true))
    ∧ (∀ a b : Task, fieldCmp f .desc a b = -(fieldCmp f .asc a b))
    ∧ ((selectTasksSortedByField .id .asc idDemoTasks).map Task.id = [10, 2]) := by
  refine ⟨?_, ?_, ?_, fieldCmp_neg f, by decide⟩
  · intro dir tasks
    exact List.perm_insertionSort _ tasks
  · intro tasks
    haveI : IsTotal Task (fun a b => fieldCmp f .asc a b ≤ 0) := by
      refine ⟨fun a b => ?_⟩
      rcases strLe_total (lower (fieldStr f a)) (lower (fieldStr f b)) with h | h
      · exact Or.inl ((fieldCmp_asc_le f h1 h2 a b).2 h)
      · exact Or.inr ((fieldCmp_asc_le f h1 h2 b a).2 h)
    haveI : IsTrans Task (fun a b => fieldCmp f .asc a b ≤ 0) := by
      refine ⟨fun a b c hab hbc => ?_⟩
      exact (fieldCmp_asc_le f h1 h2 a c).2
        (strLe_trans _ _ _ ((fieldCmp_asc_le f h1 h2 a b).1 hab)
          ((fieldCmp_asc_le f h1 h2 b c).1 hbc))
    have hs := List.sorted_insertionSort (fun a b => fieldCmp f .asc a b ≤ 0) tasks
    exact List.Pairwise.imp (fun hab => (fieldCmp_asc_le f h1 h2 _ _).1 hab) hs
  · intro tasks
    haveI : IsTotal Task (fun a b => fieldCmp f .desc a b ≤ 0) := by
      refine ⟨fun a b => ?_⟩
      rcases strLe_total (lower (fieldStr f b)) (lower (fieldStr f a)) with h | h
      · exact Or.inl ((fieldCmp_desc_le f h1 h2 a b).2 h)
      · exact Or.inr ((fieldCmp_desc_le f h1 h2 b a).2 h)
    haveI : IsTrans Task (fun a b => fieldCmp f .desc a b ≤ 0) := by
      refine ⟨fun a b c hab hbc => ?_⟩
      exact (fieldCmp_desc_le f h1 h2 a c).2
        (strLe_trans _ _ _ ((fieldCmp_desc_le f h1 h2 b c).1 hbc)
          ((fieldCmp_desc_le f h1 h2 a b).1 hab))
    have hs := List.sorted_insertionSort (fun a b => fieldCmp f .desc a b ≤ 0) tasks
    exact List.Pairwise.imp (fun hab => (fieldCmp_desc_le f h1 h2 _ _).1 hab) hs

theorem claim6_text_sort_witness :
    (SortField.id ≠ SortField.deadline) ∧ (SortField.id ≠ SortField.priority) ∧
      (selectTasksSortedByField .id .asc idDemoTasks).map Task.id = [10, 2] :=
  ⟨by decide, by decide, (claim6_text_sort .id (by decide) (by decide)).2.2.2.2⟩

theorem lookup_eq_none_of {β : Type} (i : Nat) :
    ∀ l : List (Nat × β), (∀ p ∈ l, p.1 ≠ i) → l.lookup i = none
  | [], _ => rfl
  | (a, b) :: l, h => by
    have ha : a ≠ i := h (a, b) (by simp)
    have hb : (i == a) = false := beq_eq_false_iff_ne.2 (Ne.symm ha)
    show List.lookup i ((a, b) :: l) = none
    rw [List.lookup, hb]
    exact lookup_eq_none_of i l (fun p hp => h p (by simp [hp]))

theorem lookup_mem_of {β : Type} (i : Nat) (v : β) :
    ∀ l : List (Nat × β), l.lookup i = some v → (i, v) ∈ l
  | [], h => by simp [List.lookup] at h
  | (a, b) :: l, h => by
    by_cases hia : (i == a) = true
    · have hEq : i = a := beq_iff_eq.1 hia
      have hv : b = v := by simpa [List.lookup, hia] using h
      subst hEq
      subst hv
      exact List.mem_cons_self _ _
    · have hia' : (i == a) = false := by
        cases hq : (i == a)
        · rfl
        · exact absurd hq hia
      have h' : l.lookup i = some v := by simpa [List.lookup, hia'] using h
      exact List.mem_cons_of_mem _ (lookup_mem_of i v l h')

theorem lookup_isSome_of {β : Type} (i : Nat) :
    ∀ l : List (Nat × β), (∃ p ∈ l, p.1 = i) → ∃ v, l.lookup i = some v
  | [], h => by simp at h
  | (a, b) :: l, h => by
    by_cases hia : i = a
    · subst hia
      exact ⟨b, by simp [List.lookup]⟩
    · have hia' : (i == a) = false := beq_eq_false_iff_ne.2 hia
      rcases h with ⟨p, hp, hpi⟩
      rcases List.mem_cons.1 hp with rfl | hp'
      · exact absurd hpi.symm (by simpa using hia)
      · obtain ⟨v, hv⟩ := lookup_isSome_of i l ⟨p, hp', hpi⟩
        exact ⟨v, by simpa [List.lookup, hia'] using hv⟩

theorem enumPairs_mem :
    ∀ (ids : List Nat) (k : Nat), ∀ p ∈ enumPairs k ids, p.1 ∈ ids ∧ p.2 < k + ids.length
  | [], _, p, hp => absurd hp (List.not_mem_nil p)
  | i :: ids, k, p, hp => by
    rcases List.mem_cons.1 hp with rfl | hp'
    · exact ⟨by simp, by simp⟩
    · obtain ⟨ha, hb⟩ := enumPairs_mem ids (k + 1) p hp'
      refine ⟨by simp [ha], ?_⟩
      simp only [List.length_cons]
      omega

theorem enumPairs_exists :
    ∀ (ids : List Nat) (k : Nat) (i : Nat), i ∈ ids → ∃ p ∈ enumPairs k ids, p.1 = i
  | [], _, _, h => absurd h (List.not_mem_nil _)
  | j :: ids, k, i, h => by
    rcases List.mem_cons.1 h with rfl | h'
    · exact ⟨(i, k), by simp [enumPairs], rfl⟩
    · obtain ⟨p, hp, hpi⟩ := enumPairs_exists ids (k + 1) i h'
      exact ⟨p, by simp [enumPairs, hp], hpi⟩

theorem orderKey_of_not_mem (ids : List Nat) (i : Nat) (h : i ∉ ids) :
    orderKey ids i = maxSafeInteger := by
  unfold orderKey
  rw [lookup_eq_none_of i _ ?_]
  · rfl
  · intro p hp
    have := (enumPairs_mem ids 0 p (List.mem_reverse.1 hp)).1
    intro hpi
    rw [hpi] at this
    exact h this

theorem orderKey_lt_of_mem (ids : List Nat) (i : Nat) (h : i ∈ ids)
    (hlen : ids.length < maxSafeInteger) : orderKey ids i < maxSafeInteger := by
  obtain ⟨p, hp, hpi⟩ := enumPairs_exists ids 0 i h
  obtain ⟨v, hv⟩ := lookup_isSome_of i ((enumPairs 0 ids).reverse)
    ⟨p, List.mem_reverse.2 hp, hpi⟩
  have hmem := lookup_mem_of i v _ hv
  have hb := (enumPairs_mem ids 0 (i, v) (List.mem_reverse.1 hmem)).2
  unfold orderKey
  rw [hv]
  simp only [Option.getD_some]
  omega

theorem filter_orderedInsert_eq {α : Type} (k : α → Nat) (v : Nat) (a : α) (ha : k a = v) :
    ∀ l : List α,
      (List.orderedInsert (fun x y => k x ≤ k y) a l).filter (fun x => k x == v)
        = a :: l.filter (fun x => k x == v)
  | [] => by simp [ha]
  | b :: l => by
    by_cases hb : k a ≤ k b
    · rw [List.orderedInsert_of_le (fun x y => k x ≤ k y) l hb]
      simp [List.filter_cons, ha]
    · have hkb : (k b == v) = false := by
        have hlt : k b < k a := not_le.1 hb
        exact beq_eq_false_iff_ne.2 (by omega)
      have hif : List.orderedInsert (fun x y => k x ≤ k y) a (b :: l)
          = b :: List.orderedInsert (fun x y => k x ≤ k y) a l := by
        simp [List.orderedInsert, hb]
      rw [hif]
      simp [List.filter_cons, hkb, filter_orderedInsert_eq k v a ha l]

theorem filter_orderedInsert_ne {α : Type} (k : α → Nat) (v : Nat) (a : α) (ha : k a ≠ v) :
    ∀ l : List α,
      (List.orderedInsert (fun x y => k x ≤ k y) a l).filter (fun x => k x == v)
        = l.filter (fun x => k x == v)
  | [] => by simp [List.filter_cons, beq_eq_false_iff_ne.2 ha]
  | b :: l => by
    have hka : (k a == v) = false := beq_eq_false_iff_ne.2 ha
    by_cases hb : k a ≤ k b
    · rw [List.orderedInsert_of_le (fun x y => k x ≤ k y) l hb]
      simp [List.filter_cons, hka]
    · have hif : List.orderedInsert (fun x y => k x ≤ k y) a (b :: l)
          = b :: List.orderedInsert (fun x y => k x ≤ k y) a l := by
        simp [List.orderedInsert, hb]
      rw [hif]
      simp [List.filter_cons, filter_orderedInsert_ne k v a ha l]

theorem filter_insertionSort_key {α : Type} (k : α → Nat) (v : Nat) :
    ∀ l : List α,
      (List.insertionSort (fun x y => k x ≤ k y) l).filter (fun x => k x == v)
        = l.filter (fun x => k x == v)
  | [] => rfl
  | a :: l => by
    rw [List.insertionSort]
    by_cases ha : k a = v
    · rw [filter_orderedInsert_eq k v a ha _, filter_insertionSort_key k v l]
      simp [List.filter_cons, ha]
    · rw [filter_orderedInsert_ne k v a ha _, filter_insertionSort_key k v l]
      simp [List.filter_cons, beq_eq_false_iff_ne.2 ha]

theorem sorted_split {α : Type} (p : α → Bool) (k : α → Nat)
    (hdc : ∀ x y, k x ≤ k y → p y = true → p x = true) :
    ∀ l : List α, l.Pairwise (fun x y => k x ≤ k y) →
      l = l.filter p ++ l.filter (fun x => !(p x))
  | [], _ => rfl
  | a :: l, hp => by
    obtain ⟨hhead, htail⟩ := List.pairwise_cons.1 hp
    by_cases ha : p a = true
    · simp only [List.filter_cons, ha, Bool.not_true, List.cons_append]
      exact congrArg (a :: ·) (sorted_split p k hdc l htail)
    · have ha' : p a = false := by
        cases hq : p a
        · rfl
        · exact absurd hq ha
      have hall : ∀ x ∈ l, p x = false := by
        intro x hx
        cases hq : p x
        · rfl
        · exact absurd (hdc a x (hhead x hx) hq) ha
      have h1 : List.filter p l = [] :=
        List.filter_eq_nil_iff.2 (fun x hx => by simp [hall x hx])
      have h2 : List.filter (fun x => !(p x)) l = l :=
        List.filter_eq_self.2 (fun x hx => by simp [hall x hx])
      simp [List.filter_cons, ha', h1, h2]

/-- C3: `updateTaskOrder` reorders the collection so that the tasks
whose id occurs in the submitted sequence come first, sorted by their
position in it (`orderKey`; for a duplicated id the `Map` keeps the
last position, and an absent id gets `MAX_SAFE_INTEGER`), followed by
the tasks whose id does not occur, in their previous relative order;
from the sample state, reordering by `[7, 1]` yields id order
`7,1,2,3,4,5,6`.  The length bound reflects that a JavaScript array
cannot hold `MAX_SAFE_INTEGER` elements. -/
theorem claim3_reorder :
    (∀ (s : TasksState) (ids : List Nat), ids.length < maxSafeInteger →
      ∃ m u, (updateTaskOrder s ids).1.tasks = m ++ u
        ∧ (∀ t ∈ m, t.id ∈ ids)
        ∧ (∀ t ∈ u, t.id ∉ ids)
        ∧ m.Pairwise (fun a b => orderKey ids a.id ≤ orderKey ids b.id)
        ∧ u = s.tasks.filter (fun t => !(decide (t.id ∈ ids)))
        ∧ m.Perm (s.tasks.filter (fun t => decide (t.id ∈ ids))))
    ∧ ((updateTaskOrder initialState [7, 1]).1.tasks.map Task.id
        = [7, 1, 2, 3, 4, 5, 6]) := by
  constructor
  · intro s ids hlen
    haveI : IsTotal Task (fun a b => orderKey ids a.id ≤ orderKey ids b.id) :=
      ⟨fun a b => Nat.le_total _ _⟩
    haveI : IsTrans Task (fun a b => orderKey ids a.id ≤ orderKey ids b.id) :=
      ⟨fun _ _ _ hab hbc => le_trans hab hbc⟩
    have hperm := List.perm_insertionSort
      (fun a b => orderKey ids a.id ≤ orderKey ids b.id) s.tasks
    have hsorted := List.sorted_insertionSort
      (fun a b => orderKey ids a.id ≤ orderKey ids b.id) s.tasks
    have hkey : ∀ t : Task, (!(decide (t.id ∈ ids))) = (orderKey ids t.id == maxSafeInteger) := by
      intro t
      by_cases ht : t.id ∈ ids
      · have := orderKey_lt_of_mem ids t.id ht hlen
        simp [ht, beq_eq_false_iff_ne.2 (by omega : orderKey ids t.id ≠ maxSafeInteger)]
      · simp [ht, orderKey_of_not_mem ids t.id ht]
    have hdc : ∀ x y : Task,
        orderKey ids x.id ≤ orderKey ids y.id →
        decide (x.id ∈ ids) = false → decide (y.id ∈ ids) = false := by
      intro x y hxy hx
      have hxmem : x.id ∉ ids := by simpa using hx
      have hxk : orderKey ids x.id = maxSafeInteger := orderKey_of_not_mem ids x.id hxmem
      by_contra hy
      have hymem : y.id ∈ ids := by
        cases hq : decide (y.id ∈ ids)
        · exact absurd hq hy
        · exact of_decide_eq_true hq
      have hyk := orderKey_lt_of_mem ids y.id hymem hlen
      omega
    have hdc' : ∀ x y : Task,
        orderKey ids x.id ≤ orderKey ids y.id →
        (fun t : Task => decide (t.id ∈ ids)) y = true →
        (fun t : Task => decide (t.id ∈ ids)) x = true := by
      intro x y hxy hy
      cases hq : decide (x.id ∈ ids)
      · exact absurd hy (by simp [hdc x y hxy hq])
      · exact hq
    set L := List.insertionSort (fun a b => orderKey ids a.id ≤ orderKey ids b.id) s.tasks
      with hL
    have hsplit : L = L.filter (fun t => decide (t.id ∈ ids))
        ++ L.filter (fun t => !(decide (t.id ∈ ids))) :=
      sorted_split (fun t : Task => decide (t.id ∈ ids)) (fun t => orderKey ids t.id)
        hdc' L hsorted
    refine ⟨L.filter (fun t => decide (t.id ∈ ids)),
            L.filter (fun t => !(decide (t.id ∈ ids))), hsplit, ?_, ?_, ?_, ?_, ?_⟩
    · intro t ht
      have := (List.mem_filter.1 ht).2
      simpa using this
    · intro t ht
      have := (List.mem_filter.1 ht).2
      simpa using this
    · exact List.Pairwise.sublist (List.filter_sublist L) hsorted
    · have e1 : L.filter (fun t => !(decide (t.id ∈ ids)))
          = L.filter (fun t => orderKey ids t.id == maxSafeInteger) :=
        List.filter_congr (fun t _ => hkey t)
      have e2 : L.filter (fun t => orderKey ids t.id == maxSafeInteger)
          = s.tasks.filter (fun t => orderKey ids t.id == maxSafeInteger) :=
        filter_insertionSort_key (fun t : Task => orderKey ids t.id) maxSafeInteger s.tasks
      have e3 : s.tasks.filter (fun t => orderKey ids t.id == maxSafeInteger)
          = s.tasks.filter (fun t => !(decide (t.id ∈ ids))) :=
        (List.filter_congr (fun t _ => hkey t)).symm
      rw [e1, e2, e3]
    · exact hperm.filter _
  · rfl

theorem claim3_reorder_witness :
    ([7, 1] : List Nat).length < maxSafeInteger ∧
      ∃ m u, (updateTaskOrder initialState [7, 1]).1.tasks = m ++ u
        ∧ (∀ t ∈ m, t.id ∈ ([7, 1] : List Nat))
        ∧ (∀ t ∈ u, t.id ∉ ([7, 1] : List Nat))
        ∧ m.Pairwise (fun a b => orderKey [7, 1] a.id ≤ orderKey [7, 1] b.id)
        ∧ u = initialState.tasks.filter (fun t => !(decide (t.id ∈ ([7, 1] : List Nat))))
        ∧ m.Perm (initialState.tasks.filter (fun t => decide (t.id ∈ ([7, 1] : List Nat)))) :=
  ⟨by decide, claim3_reorder.1 initialState [7, 1] (by decide)⟩

theorem map_updateFirst {α β : Type} (p : α → Bool) (f : α → α) (g : α → β)
    (hg : ∀ a, p a = true → g (f a) = g a) :
    ∀ l : List α, (updateFirst p f l).map g = l.map g
  | [] => rfl
  | a :: l => by
    by_cases h : p a = true
    · simp [updateFirst, h, hg a h]
    · simp [updateFirst, h, map_updateFirst p f g hg l]

theorem map_filter_id (i : Nat) :
    ∀ l : List Task,
      (l.filter (fun t => t.id != i)).map Task.id = (l.map Task.id).filter (fun x => x != i)
  | [] => rfl
  | t :: l => by
    by_cases h : (t.id != i) = true
    · simp [List.filter_cons, h, map_filter_id i l]
    · have h' : (t.id != i) = false := by
        cases hq : (t.id != i)
        · rfl
        · exact absurd hq h
      simp [List.filter_cons, h', map_filter_id i l]

theorem StateInv_congr (s s' : TasksState)
    (ht : s'.tasks.map Task.id = s.tasks.map Task.id)
    (hn : s'.nextId = s.nextId) (hdel : s'.deletedIds = s.deletedIds)
    (h : StateInv s) : StateInv s' := by
  unfold StateInv at *
  rw [ht, hn, hdel]
  exact h

theorem StateInv_perm (s s' : TasksState)
    (ht : (s'.tasks.map Task.id).Perm (s.tasks.map Task.id))
    (hn : s'.nextId = s.nextId) (hdel : s'.deletedIds = s.deletedIds)
    (h : StateInv s) : StateInv s' := by
  obtain ⟨h1, h2, h3, h4, h5⟩ := h
  unfold StateInv
  rw [hn, hdel]
  refine ⟨ht.nodup_iff.2 h1, h2, ?_, ?_, h5⟩
  · intro i hi hmem
    exact h3 i hi (ht.subset hmem)
  · intro i hi
    exact h4 i (ht.subset hi)

theorem inv_initial : StateInv initialState := by
  refine ⟨by decide, by decide, by decide, by decide, by decide⟩

theorem inv_addTask (s : TasksState) (p : NewTask) (h : StateInv s) :
    StateInv (addTask s p).1 := by
  obtain ⟨h1, h2, h3, h4, h5⟩ := h
  by_cases hd : 0 < s.deletedIds.length
  · have hne : s.deletedIds ≠ [] := List.length_pos.1 hd
    have hperm : (List.insertionSort (· ≤ ·) s.deletedIds).Perm s.deletedIds :=
      List.perm_insertionSort _ _
    have hfst : (addTask s p).1
        = ⟨s.tasks ++ [mkTask (List.insertionSort (· ≤ ·) s.deletedIds).headI p],
           s.nextId, (List.insertionSort (· ≤ ·) s.deletedIds).tail⟩ := by
      simp [addTask, hd]
    rw [hfst]
    cases hs : List.insertionSort (· ≤ ·) s.deletedIds with
    | nil =>
      rw [hs] at hperm
      exact absurd hperm.symm.eq_nil hne
    | cons d tl =>
      rw [hs] at hperm
      have hnodup : (d :: tl).Nodup := hperm.nodup_iff.2 h2
      have hdmem : d ∈ s.deletedIds := hperm.subset (by simp)
      have htl : ∀ x ∈ tl, x ∈ s.deletedIds := fun x hx => hperm.subset (by simp [hx])
      simp only [List.headI, List.tail_cons]
      refine ⟨?_, (List.nodup_cons.1 hnodup).2, ?_, ?_, ?_⟩
      · rw [List.map_append, List.nodup_append]
        refine ⟨h1, by simp, ?_⟩
        intro x hx1 hx2
        have hxd : x = d := by simpa [mkTask] using hx2
        rw [hxd] at hx1
        exact h3 d hdmem hx1
      · intro i hi
        rw [List.map_append, List.mem_append]
        rintro (hmem | hmem)
        · exact h3 i (htl i hi) hmem
        · have hid : i = d := by simpa [mkTask] using hmem
          rw [hid] at hi
          exact (List.nodup_cons.1 hnodup).1 hi
      · intro i hi
        rw [List.map_append, List.mem_append] at hi
        rcases hi with hmem | hmem
        · exact h4 i hmem
        · have hid : i = d := by simpa [mkTask] using hmem
          rw [hid]
          exact h5 d hdmem
      · intro i hi
        exact h5 i (htl i hi)
  · have hfst : (addTask s p).1
        = ⟨s.tasks ++ [mkTask s.nextId p], s.nextId + 1, s.deletedIds⟩ := by
      simp [addTask, hd]
    have hnil : s.deletedIds = [] := by
      cases hq : s.deletedIds
      · rfl
      · rw [hq] at hd
        simp at hd
    rw [hfst]
    refine ⟨?_, by simp [hnil], by simp [hnil], ?_, by simp [hnil]⟩
    · rw [List.map_append, List.nodup_append]
      refine ⟨h1, by simp, ?_⟩
      intro x hx1 hx2
      have : x = s.nextId := by simpa [mkTask] using hx2
      subst this
      exact absurd (h4 _ hx1) (lt_irrefl _)
    · intro i hi
      rw [List.map_append, List.mem_append] at hi
      rcases hi with hmem | hmem
      · exact Nat.lt_succ_of_lt (h4 i hmem)
      · have : i = s.nextId := by simpa [mkTask] using hmem
        subst this
        exact Nat.lt_succ_self _

theorem inv_updateTask (s : TasksState) (p : TaskPatch) (h : StateInv s) :
    StateInv (updateTask s p).1 := by
  by_cases hany : s.tasks.any (fun t => t.id == p.id) = true
  · have hfst : (updateTask s p).1
        = { s with tasks :=
              updateFirst (fun t => t.id == p.id) (fun t => applyPatch t p) s.tasks } := by
      simp [updateTask, hany]
    refine StateInv_congr s _ ?_ (by rw [hfst]) (by rw [hfst]) h
    rw [hfst]
    show (updateFirst (fun t : Task => t.id == p.id)
        (fun t => applyPatch t p) s.tasks).map Task.id = s.tasks.map Task.id
    exact map_updateFirst (fun t : Task => t.id == p.id) (fun t => applyPatch t p) Task.id
      (fun a ha => by
        simp only [applyPatch]
        exact (beq_iff_eq.1 ha).symm) s.tasks
  · have hfst : (updateTask s p).1 = s := by simp [updateTask, hany]
    rw [hfst]
    exact h

theorem inv_toggleTask (s : TasksState) (i : Nat) (h : StateInv s) :
    StateInv (toggleTaskStatus s i).1 := by
  by_cases hany : s.tasks.any (fun t => t.id == i) = true
  · have hfst : (toggleTaskStatus s i).1
        = { s with tasks := updateFirst (fun t => t.id == i) toggleTask s.tasks } := by
      simp [toggleTaskStatus, hany]
    refine StateInv_congr s _ ?_ (by rw [hfst]) (by rw [hfst]) h
    rw [hfst]
    show (updateFirst (fun t : Task => t.id == i) toggleTask s.tasks).map Task.id
      = s.tasks.map Task.id
    exact map_updateFirst (fun t : Task => t.id == i) toggleTask Task.id
      (fun a _ => rfl) s.tasks
  · have hfst : (toggleTaskStatus s i).1 = s := by simp [toggleTaskStatus, hany]
    rw [hfst]
    exact h

theorem inv_deleteTask (s : TasksState) (i : Nat) (hmem : i ∈ s.tasks.map Task.id)
    (h : StateInv s) : StateInv (deleteTask s i).1 := by
  obtain ⟨h1, h2, h3, h4, h5⟩ := h
  have hids : (deleteTask s i).1.tasks.map Task.id
      = (s.tasks.map Task.id).filter (fun x => x != i) := map_filter_id i s.tasks
  refine ⟨?_, ?_, ?_, ?_, ?_⟩
  · rw [hids]
    exact h1.filter _
  · show (s.deletedIds ++ [i]).Nodup
    rw [List.nodup_append]
    refine ⟨h2, by simp, ?_⟩
    intro x hx1 hx2
    have : x = i := by simpa using hx2
    subst this
    exact absurd hmem (h3 x hx1)
  · intro j hj
    rw [hids]
    rcases List.mem_append.1 hj with hj' | hj'
    · intro hmem'
      exact h3 j hj' (List.mem_of_mem_filter hmem')
    · have : j = i := by simpa using hj'
      subst this
      intro hmem'
      have := (List.mem_filter.1 hmem').2
      simp at this
  · intro j hj
    rw [hids] at hj
    exact h4 j (List.mem_of_mem_filter hj)
  · intro j hj
    rcases List.mem_append.1 hj with hj' | hj'
    · exact h5 j hj'
    · have : j = i := by simpa using hj'
      subst this
      exact h4 j hmem

theorem inv_reorder (s : TasksState) (ids : List Nat) (h : StateInv s) :
    StateInv (updateTaskOrder s ids).1 := by
  refine StateInv_perm s _ ?_ rfl rfl h
  exact (List.perm_insertionSort _ s.tasks).map Task.id

theorem inv_reset (s : TasksState) : StateInv (resetToSampleData s).1 := inv_initial

theorem goodRun_append :
    ∀ (l1 : List Action) (s : TasksState) (l2 : List Action),
      goodRun s (l1 ++ l2) = true → goodRun s l1 = true
  | [], _, _, _ => rfl
  | a :: l1, s, l2, h => by
    rw [List.cons_append, goodRun, Bool.and_eq_true] at h
    rw [goodRun, Bool.and_eq_true]
    obtain ⟨hg, hrest⟩ := h
    exact ⟨hg, goodRun_append l1 _ l2 hrest⟩

theorem goodRun_inv :
    ∀ (acts : List Action) (s : TasksState), StateInv s → goodRun s acts = true →
      StateInv (runActions s acts)
  | [], s, h, _ => h
  | a :: acts, s, h, hg => by
    rw [goodRun, Bool.and_eq_true] at hg
    obtain ⟨hguard, hrest⟩ := hg
    have hnext : StateInv (applyAction s a) := by
      cases a with
      | add p => exact inv_addTask s p h
      | update p => exact inv_updateTask s p h
      | toggle i => exact inv_toggleTask s i h
      | delete i =>
        have hmem : i ∈ s.tasks.map Task.id := by
          obtain ⟨t, ht, hti⟩ := List.any_eq_true.1 hguard
          exact List.mem_map.2 ⟨t, ht, beq_iff_eq.1 hti⟩
        exact inv_deleteTask s i hmem h
      | reorder ids => exact inv_reorder s ids h
      | reset => exact inv_reset s
    exact goodRun_inv acts (applyAction s a) hnext hrest

/-- C1, corrected: along every action sequence from the initial state in
which each `deleteTask` targets an id actually present in the
collection at that moment (`goodRun`), task ids stay unique after every
step (every prefix of a good run is itself a good run, and the
statement quantifies over the split point).  The restriction on deletes
is necessary: see the counterexample. -/
theorem claim1_unique_ids (acts1 acts2 : List Action)
    (h : goodRun initialState (acts1 ++ acts2) = true) :
    ((runActions initialState acts1).tasks.map Task.id).Nodup :=
  (goodRun_inv acts1 initialState inv_initial (goodRun_append acts1 initialState acts2 h)).1

/-- Witness run for the corrected C1 statement. -/
theorem claim1_unique_ids_witness :
    goodRun initialState
        ([Action.delete 3, Action.add sampleNewTask] ++ [Action.toggle 1]) = true
    ∧ ((runActions initialState
        [Action.delete 3, Action.add sampleNewTask]).tasks.map Task.id).Nodup :=
  ⟨by decide,
    claim1_unique_ids [Action.delete 3, Action.add sampleNewTask] [Action.toggle 1]
      (by decide)⟩

/-- Counterexample to C1 as stated: deleting the absent id 8 from the
seeded state enqueues 8 for reuse, after which two `addTask` calls both
allocate id 8 (the first by reuse without advancing `nextId`, the
second from `nextId`), leaving two tasks with id 8. -/
theorem claim1_counterexample :
    ¬ (((runActions initialState
        [Action.delete 8, Action.add sampleNewTask, Action.add sampleNewTask]).tasks.map
          Task.id).Nodup) := by decide

end TaskManager
